import Mathlib

/-!
Verification of the tex2text pipeline (src/tex2text.py).

The Python source is shallowly embedded: strings become `List Char` (wrapped
in `String` at the interfaces), and each `re.sub` pass of the source is
translated into an executable recursive scanner that follows Python's
left-to-right, non-overlapping substitution semantics for the concrete
pattern it implements.  External collaborators (the file system codecs, the
pylatexenc converter, the ftfy sanitizer) are modelled as explicit
parameters or, where the spec fixes their behaviour, as definitions marked
as modelled from the spec.
-/

namespace TexToText

/-- Python whitespace (`str.isspace`, and `\s` in a `str` regex): ASCII
whitespace, the C1 separators, NEL, NBSP and the Unicode space characters. -/
def isPySpace (c : Char) : Bool :=
  c == ' ' || c == '\t' || c == '\n' || c == '\r' || c == '\x0b' || c == '\x0c' ||
  c == '\x1c' || c == '\x1d' || c == '\x1e' || c == '\x1f' || c == '\x85' || c == '\xa0' ||
  c == '\u1680' || c == '\u2000' || c == '\u2001' || c == '\u2002' || c == '\u2003' ||
  c == '\u2004' || c == '\u2005' || c == '\u2006' || c == '\u2007' || c == '\u2008' ||
  c == '\u2009' || c == '\u200a' || c == '\u2028' || c == '\u2029' || c == '\u202f' ||
  c == '\u205f' || c == '\u3000'

/-- Substring test on character lists: `containsLC pat l` is true iff `pat`
occurs contiguously inside `l` (Python's `in` / `re.search` with a literal
pattern). -/
def containsLC (pat : List Char) : List Char → Bool
  | [] => pat.isEmpty
  | c :: t => pat.isPrefixOf (c :: t) || containsLC pat t

/-! ## Document Collector: `find_main_tex_file` (src/tex2text.py lines 75-90) -/

/-- The document-class marker searched for by `re.search(r'\\documentclass', content)`
(a literal substring search, since the pattern has no metacharacters). -/
def documentclassMarker : List Char := "\\documentclass".data

/-- True iff a document's content contains the document-class marker
(the loop condition of `find_main_tex_file`). -/
def hasDocclass (p : String × String) : Bool :=
  containsLC documentclassMarker p.2.data

/-- The `for file, content in tex_files: if re.search(...): return file, content`
loop of `find_main_tex_file`. -/
def findDocclass : List (String × String) → Option (String × String)
  | [] => none
  | p :: t => if hasDocclass p then some p else findDocclass t

/-- Embedding of `find_main_tex_file` (src/tex2text.py lines 75-90): first document whose
content contains `\documentclass`; else the first document; else `("", "")`. -/
def find_main_tex_file (texFiles : List (String × String)) : String × String :=
  match findDocclass texFiles with
  | some p => p
  | none =>
    match texFiles with
    | p :: _ => p
    | [] => ("", "")

/-! ## Non-greedy span removal (`re.sub(open + '.*?' + close, repl, s)`)

`subDelimF` follows Python's `re.sub` scan for a pattern made of a literal
opening delimiter, a non-greedy `.*?` and a literal closing delimiter: the
subject is scanned left to right; at each position the opening delimiter must
match, then the closest following occurrence of the closing delimiter ends
the match (with `.` not crossing a newline unless `re.DOTALL` is set);
non-matching positions advance by one character, and scanning resumes after
each replaced match.  Fuel (always instantiated with the subject length,
which bounds the number of scan steps) makes the recursion structural. -/

/-- Index of the first position where `close` starts, scanning `l`; `none` if
there is none, or (when `dotAll` is false) if a newline occurs strictly
before it, since `.*?` cannot match a newline without `re.DOTALL`. -/
def findCloseIdx (dotAll : Bool) (close : List Char) : List Char → Option Nat
  | [] => if close.isPrefixOf ([] : List Char) then some 0 else none
  | c :: t =>
    if close.isPrefixOf (c :: t) then some 0
    else if dotAll = false ∧ c = '\n' then none
    else (findCloseIdx dotAll close t).map (· + 1)

/-- One `re.sub` pass for the pattern `opn .*? close` with replacement `repl`. -/
def subDelimF (dotAll : Bool) (opn close repl : List Char) : Nat → List Char → List Char
  | 0, l => l
  | _ + 1, [] => []
  | f + 1, c :: t =>
    if opn.isPrefixOf (c :: t) then
      match findCloseIdx dotAll close (List.drop opn.length (c :: t)) with
      | some j =>
        repl ++ subDelimF dotAll opn close repl f
          (List.drop (j + close.length) (List.drop opn.length (c :: t)))
      | none => c :: subDelimF dotAll opn close repl f t
    else c :: subDelimF dotAll opn close repl f t

def subDelim (dotAll : Bool) (opn close repl l : List Char) : List Char :=
  subDelimF dotAll opn close repl l.length l

/-! ## Markup Pre-Cleaner: `clean_tex_content` (src/tex2text.py lines 92-121) -/

/-- The five `remove_pattern` passes of `clean_tex_content`, in source order:
table environments, tabular environments, figure environments, display math
(`$$...$$`), inline math (`$...$`); all with `re.DOTALL` and empty
replacement. -/
def clean_tex_contentL (l : List Char) : List Char :=
  let t1 := subDelim true "\\begin\x7btable\x7d".data "\\end\x7btable\x7d".data [] l
  let t2 := subDelim true "\\begin\x7btabular\x7d".data "\\end\x7btabular\x7d".data [] t1
  let t3 := subDelim true "\\begin\x7bfigure\x7d".data "\\end\x7bfigure\x7d".data [] t2
  let t4 := subDelim true "$$".data "$$".data [] t3
  subDelim true "$".data "$".data [] t4

/-- Embedding of `clean_tex_content` (src/tex2text.py lines 92-121).  The `debug` flag of
the source only controls `print` calls inside `remove_pattern` (via
`re.findall` over the same content); the returned string is computed by the
same five `re.sub` passes either way, so the flag does not occur in the
returned value. -/
def clean_tex_content (texContent : String) (debug : Bool) : String :=
  ⟨clean_tex_contentL texContent.data⟩

/-! ## Text Normalizer: `clean_text` (src/tex2text.py lines 154-192)

Each `re.sub` statement of `clean_text` becomes one scanner below, in source
order.  The patterns of lines 172-181 are compiled without `re.DOTALL`, so
`.` there does not match a newline. -/

/-- For `re.sub(r'(\n\s*\n)', '\n\n', text)`: given the characters after an
initial `\n`, the index of the last `\n` inside the maximal whitespace run
(greedy `\s*` backtracking to the latest possible closing `\n`). -/
def lastNlInWs : List Char → Option Nat
  | [] => none
  | c :: t =>
    if isPySpace c then
      match lastNlInWs t with
      | some k => some (k + 1)
      | none => if c = '\n' then some 0 else none
    else none

/-- The pass `re.sub(r'(\n\s*\n)', '\n\n', text)` (line 169). -/
def sub_blankF : Nat → List Char → List Char
  | 0, l => l
  | _ + 1, [] => []
  | f + 1, c :: t =>
    if c = '\n' then
      match lastNlInWs t with
      | some k => '\n' :: '\n' :: sub_blankF f (List.drop (k + 1) t)
      | none => c :: sub_blankF f t
    else c :: sub_blankF f t

def sub_blank (l : List Char) : List Char := sub_blankF l.length l

def isAsciiLetter (c : Char) : Bool :=
  ('a' ≤ c && c ≤ 'z') || ('A' ≤ c && c ≤ 'Z')

/-- Length of the maximal `[a-zA-Z]+` run at the head of the list. -/
def countLetters : List Char → Nat
  | [] => 0
  | c :: t => if isAsciiLetter c then countLetters t + 1 else 0

/-- After the letters of `\\[a-zA-Z]+\*?\{`: an optional `*` then a literal
`{`; returns the characters after the `{`, or `none` if the pattern cannot
continue here. -/
def afterCmdBody : List Char → Option (List Char)
  | '\x7b' :: r => some r
  | '*' :: '\x7b' :: r => some ('\x7b' :: r).tail
  | _ => none

/-- The pass `re.sub(r'\\[a-zA-Z]+\*?\{.*?\}', '', text)` (line 177). -/
def sub_cmdF : Nat → List Char → List Char
  | 0, l => l
  | _ + 1, [] => []
  | f + 1, c :: t =>
    if c = '\\' then
      match afterCmdBody (List.drop (countLetters t) t), countLetters t with
      | some rest2, _ + 1 =>
        match findCloseIdx false ['\x7d'] rest2 with
        | some j => sub_cmdF f (List.drop (j + 1) rest2)
        | none => c :: sub_cmdF f t
      | _, _ => c :: sub_cmdF f t
    else c :: sub_cmdF f t

def sub_cmd (l : List Char) : List Char := sub_cmdF l.length l

/-- Shape test for the characters after the `<` of `<cit.>`: `cit`, then the
character matched by the unescaped `.`, then `>`. -/
def citHit : List Char → Option (Char × List Char)
  | 'c' :: 'i' :: 't' :: x :: '>' :: rest => some (x, rest)
  | _ => none

/-- The pass `re.sub(r'<cit.>', '', text)` (line 180); the unescaped `.`
matches any single character other than a newline. -/
def sub_citTokF : Nat → List Char → List Char
  | 0, l => l
  | _ + 1, [] => []
  | f + 1, c :: t =>
    if c = '<' then
      match citHit t with
      | some (x, rest) =>
        if x = '\n' then c :: sub_citTokF f t else sub_citTokF f rest
      | none => c :: sub_citTokF f t
    else c :: sub_citTokF f t

def sub_citTok (l : List Char) : List Char := sub_citTokF l.length l

/-- Shape test for the characters after the `<` of a literal `<ref>`. -/
def refHit : List Char → Option (List Char)
  | 'r' :: 'e' :: 'f' :: '>' :: rest => some rest
  | _ => none

/-- The pass `re.sub(r'<ref>', '', text)` (line 181). -/
def sub_refTokF : Nat → List Char → List Char
  | 0, l => l
  | _ + 1, [] => []
  | f + 1, c :: t =>
    if c = '<' then
      match refHit t with
      | some rest => sub_refTokF f rest
      | none => c :: sub_refTokF f t
    else c :: sub_refTokF f t

def sub_refTok (l : List Char) : List Char := sub_refTokF l.length l

def dropLit (pat l : List Char) : Option (List Char) :=
  if pat.isPrefixOf l then some (List.drop pat.length l) else none

/-- Match of `https?://[^>]+>` against the characters following a `<`:
returns the captured URL (group 1 of `r'<(https?://[^>]+)>'`) and the
characters after the closing `>`. -/
def urlSpan (t : List Char) : Option (List Char × List Char) :=
  match dropLit ['h', 't', 't', 'p'] t with
  | none => none
  | some t1 =>
    match (match t1 with
            | 's' :: r => (['s'], r)
            | _ => (([] : List Char), t1)) with
    | (sPart, t2) =>
      match dropLit [':', '/', '/'] t2 with
      | none => none
      | some t3 =>
        match List.takeWhile (fun c => c != '>') t3 with
        | [] => none
        | d :: ds =>
          match List.drop (d :: ds).length t3 with
          | '>' :: rest =>
            some (['h', 't', 't', 'p'] ++ sPart ++ [':', '/', '/'] ++ (d :: ds), rest)
          | _ => none

/-- The pass `re.sub(r'<(https?://[^>]+)>', r'\1', text)` (line 184). -/
def sub_urlF : Nat → List Char → List Char
  | 0, l => l
  | _ + 1, [] => []
  | f + 1, c :: t =>
    if c = '<' then
      match urlSpan t with
      | some (u, rest) => u ++ sub_urlF f rest
      | none => c :: sub_urlF f t
    else c :: sub_urlF f t

def sub_url (l : List Char) : List Char := sub_urlF l.length l

/-- The pass `re.sub(r'(?<!\n)\n(?!\n)', ' ', text)` (line 187); `prev` is
the character preceding the scan position in the original subject (the
lookbehind inspects the subject, not the replacement). -/
def sub_singleNl (prev : Option Char) : List Char → List Char
  | [] => []
  | c :: t =>
    if c = '\n' ∧ prev ≠ some '\n' ∧ t.head? ≠ some '\n' then
      ' ' :: sub_singleNl (some c) t
    else c :: sub_singleNl (some c) t

/-- Greedy consumption of leading `\n\n` pairs (the `+` of `(\n\n)+`). -/
def takePairs : List Char → Nat × List Char
  | a :: b :: rest =>
    if a = '\n' ∧ b = '\n' then ((takePairs rest).1 + 1, (takePairs rest).2)
    else (0, a :: b :: rest)
  | l => (0, l)

/-- The pass `re.sub(r'(\n\n)+', '\n\n', text)` (line 190). -/
def sub13F : Nat → List Char → List Char
  | 0, l => l
  | _ + 1, [] => []
  | f + 1, a :: t =>
    match t with
    | b :: t2 =>
      if a = '\n' ∧ b = '\n' then '\n' :: '\n' :: sub13F f (takePairs t2).2
      else a :: sub13F f (b :: t2)
    | [] => [a]

def sub13 (l : List Char) : List Char := sub13F l.length l

/-- Python `str.strip()` (line 192): remove leading and trailing whitespace. -/
def pyStrip (l : List Char) : List Char :=
  (((l.dropWhile isPySpace).reverse).dropWhile isPySpace).reverse

/-- Modelled from the spec: the external text-sanitization capability
(`ftfy.fix_text`, §4.6 step 1 / §6 of the spec) is a third-party black box
that repairs mojibake and ligature artifacts, and on artifact-free text it
changes nothing.  It is modelled as the identity, and this model is relied
on only where that specified behaviour applies: in concrete evaluations on
plain-ASCII, artifact-free inputs (the counterexamples and witnesses below).
Every general theorem whose truth could depend on the sanitizer's behaviour
on arbitrary text is instead stated over an arbitrary sanitizer via
`clean_textWith`, with an explicit fixed-point hypothesis standing for
"the sanitizer finds nothing to repair here". -/
def fix_text (s : String) : String := s

/-- The twelve passes of `clean_text` (src/tex2text.py lines 154-192), in
source order, over the characters of the already-sanitized text. -/
def clean_textL (l : List Char) : List Char :=
  let t2 := sub_blank l
  let t3 := subDelim false "\\cite\x7b".data ['\x7d'] "<cit.>".data t2
  let t4 := subDelim false "\\ref\x7b".data ['\x7d'] "<ref>".data t3
  let t5 := subDelim false "\\label\x7b".data ['\x7d'] [] t4
  let t6 := subDelim false "\\begin\x7b".data ['\x7d'] [] t5
  let t7 := subDelim false "\\end\x7b".data ['\x7d'] [] t6
  let t8 := sub_cmd t7
  let t9 := sub_citTok t8
  let t10 := sub_refTok t9
  let t11 := sub_url t10
  let t12 := sub_singleNl none t11
  let t13 := sub13 t12
  pyStrip t13

/-- Embedding of `clean_text` (src/tex2text.py lines 154-192) with the
external sanitization capability as an explicit parameter `fix` standing
for `ftfy.fix_text`. -/
def clean_textWith (fix : String → String) (text : String) : String :=
  ⟨clean_textL (fix text).data⟩

/-- Embedding of `clean_text` (src/tex2text.py lines 154-192), with the
sanitizer instantiated by its artifact-free-text model. -/
def clean_text (text : String) : String :=
  clean_textWith fix_text text

/-! ### Strip lemmas -/

/-- True iff the list has no leading and no trailing Python whitespace. -/
def strippedL (l : List Char) : Bool :=
  (match l.head? with
   | some c => !isPySpace c
   | none => true) &&
  (match l.getLast? with
   | some c => !isPySpace c
   | none => true)

/-- C6 formalized claim: the output of `clean_text` has no run of three or
more consecutive newlines, no leading/trailing whitespace, and no occurrence
of the placeholder tokens. -/
def cleanedTextClaim (t : String) : Prop :=
  containsLC ['\n', '\n', '\n'] t.data = false ∧
  strippedL t.data = true ∧
  containsLC "<cit.>".data t.data = false ∧
  containsLC "<ref>".data t.data = false

/-! ## TeX-to-Text Converter: `tex_to_text` (src/tex2text.py lines 136-152)

The external pylatexenc conversion capability is a black box (spec §4.5/§6);
it is modelled as an explicit `convert` argument whose `Except` result
stands for the `try`/`except` outcome of `converter.latex_to_text`. -/

def tex_to_text (convert : String → Except String String) (texContent : String) : String :=
  match convert texContent with
  | Except.ok text => text
  | Except.error _ => texContent

/-! ## Resilient File Reader: `read_file_with_fallback` (src/tex2text.py lines 37-54)

The file system and codecs are external; `decode enc` stands for the outcome
of `open(file_path, 'r', encoding=enc).read()` on the file's bytes: `some
content` on success, `none` when a `UnicodeDecodeError` is raised. -/

def encodings : List String := ["utf-8", "latin-1", "iso-8859-1"]

/-- The message of the `raise` on line 54:
`f"Failed to read {file_path} with tried encodings"`. -/
def decodeFailMsg (path : String) : String :=
  "Failed to read " ++ path ++ " with tried encodings"

def readWithEncodings (decode : String → Option String) (path : String) :
    List String → Except String String
  | [] => Except.error (decodeFailMsg path)
  | e :: rest =>
    match decode e with
    | some content => Except.ok content
    | none => readWithEncodings decode path rest

def read_file_with_fallback (decode : String → Option String) (path : String) :
    Except String String :=
  readWithEncodings decode path encodings

/-! ## Byte-level decoding, for the unreachability of the failure branch -/

def isContByte (b : Fin 256) : Bool := decide (0x80 ≤ b.val ∧ b.val ≤ 0xBF)

def utf8Cont2Ok (b b2 : Fin 256) : Bool :=
  if b.val = 0xE0 then decide (0xA0 ≤ b2.val ∧ b2.val ≤ 0xBF)
  else if b.val = 0xED then decide (0x80 ≤ b2.val ∧ b2.val ≤ 0x9F)
  else isContByte b2

def utf8Cont3Ok (b b2 : Fin 256) : Bool :=
  if b.val = 0xF0 then decide (0x90 ≤ b2.val ∧ b2.val ≤ 0xBF)
  else if b.val = 0xF4 then decide (0x80 ≤ b2.val ∧ b2.val ≤ 0x8F)
  else isContByte b2

/-- Strict UTF-8 decoding of a byte sequence (Python's `utf-8` codec):
`none` on any ill-formed sequence (stray continuation byte, overlong form,
surrogate, out-of-range lead byte or truncated sequence). -/
def utf8DecodeBytes : List (Fin 256) → Option (List Char)
  | [] => some []
  | b :: rest =>
    if b.val ≤ 0x7F then
      (utf8DecodeBytes rest).map (fun cs => Char.ofNat b.val :: cs)
    else if 0xC2 ≤ b.val ∧ b.val ≤ 0xDF then
      match rest with
      | b2 :: r =>
        if isContByte b2 then
          (utf8DecodeBytes r).map
            (fun cs => Char.ofNat ((b.val - 0xC0) * 0x40 + (b2.val - 0x80)) :: cs)
        else none
      | [] => none
    else if 0xE0 ≤ b.val ∧ b.val ≤ 0xEF then
      match rest with
      | b2 :: b3 :: r =>
        if utf8Cont2Ok b b2 && isContByte b3 then
          (utf8DecodeBytes r).map (fun cs =>
            Char.ofNat ((b.val - 0xE0) * 0x1000 + (b2.val - 0x80) * 0x40 + (b3.val - 0x80)) :: cs)
        else none
      | _ => none
    else if 0xF0 ≤ b.val ∧ b.val ≤ 0xF4 then
      match rest with
      | b2 :: b3 :: b4 :: r =>
        if utf8Cont3Ok b b2 && isContByte b3 && isContByte b4 then
          (utf8DecodeBytes r).map (fun cs =>
            Char.ofNat ((b.val - 0xF0) * 0x40000 + (b2.val - 0x80) * 0x1000 +
              (b3.val - 0x80) * 0x40 + (b4.val - 0x80)) :: cs)
        else none
      | _ => none
    else none

/-- The latin-1 codec (and its alias iso-8859-1): every byte decodes to the
character of the same code point; decoding never fails. -/
def latin1Decode (bytes : List (Fin 256)) : List Char :=
  bytes.map (fun b => Char.ofNat b.val)

/-- The decode outcomes of `open(file_path, 'r', encoding=enc).read()` for a
file holding `bytes`, per encoding name used by the source. -/
def pyDecode (bytes : List (Fin 256)) (enc : String) : Option String :=
  if enc = "utf-8" then (utf8DecodeBytes bytes).map (fun cs => (⟨cs⟩ : String))
  else if enc = "latin-1" then some ⟨latin1Decode bytes⟩
  else if enc = "iso-8859-1" then some ⟨latin1Decode bytes⟩
  else none

def read_file_with_fallback_bytes (path : String) (bytes : List (Fin 256)) :
    Except String String :=
  read_file_with_fallback (pyDecode bytes) path

/-! ## Statistics: `extract_text_and_stats` (src/tex2text.py lines 235-237) -/

/-- Python `str.split()` with no separator: split on runs of whitespace,
discarding empty tokens; `cur` accumulates the current word reversed. -/
def pySplitGo (cur : List Char) : List Char → List (List Char)
  | [] => if cur.isEmpty then [] else [cur.reverse]
  | c :: t =>
    if isPySpace c then
      if cur.isEmpty then pySplitGo [] t else cur.reverse :: pySplitGo [] t
    else pySplitGo (c :: cur) t

def pySplitWs (l : List Char) : List (List Char) := pySplitGo [] l

/-- Python `str.count('\n\n')`: non-overlapping occurrences, scanning left
to right and advancing past each match. -/
def countNlNl : List Char → Nat
  | '\n' :: '\n' :: t => countNlNl t + 1
  | _ :: t => countNlNl t
  | [] => 0

/-- The three statistics computed on the final cleaned text (lines 235-237):
`len(text.split())`, `text.count('\n\n') + 1`, `len(text)`. -/
def extract_stats (text : String) : Nat × Nat × Nat :=
  ((pySplitWs text.data).length, countNlNl text.data + 1, text.data.length)

/-- Independent word count: the number of maximal nonwhitespace runs,
counted by space-to-word transitions; `afterSpace` records whether the scan
is at the start or just after whitespace. -/
def countWordRuns (afterSpace : Bool) : List Char → Nat
  | [] => 0
  | c :: t =>
    if isPySpace c then countWordRuns true t
    else (if afterSpace then 1 else 0) + countWordRuns false t

lemma isPrefixOf_iff_ex (pat l : List Char) :
    pat.isPrefixOf l = true ↔ ∃ t, l = pat ++ t := by
  induction pat generalizing l with
  | nil => simp [List.isPrefixOf]
  | cons p ps ih =>
    cases l with
    | nil => simp [List.isPrefixOf]
    | cons c t =>
      simp only [List.isPrefixOf, Bool.and_eq_true, beq_iff_eq, ih, List.cons_append,
        List.cons.injEq]
      constructor
      · rintro ⟨h1, t', rfl⟩; exact ⟨t', h1.symm, rfl⟩
      · rintro ⟨t', h1, rfl⟩; exact ⟨h1.symm, t', rfl⟩

lemma containsLC_iff_parts (pat l : List Char) :
    containsLC pat l = true ↔ ∃ u v, l = u ++ pat ++ v := by
  induction l with
  | nil =>
    simp only [containsLC, List.isEmpty_iff]
    constructor
    · rintro rfl; exact ⟨[], [], rfl⟩
    · rintro ⟨u, v, h⟩
      rcases List.append_eq_nil.mp h.symm with ⟨h1, h2⟩
      exact (List.append_eq_nil.mp h1).2
  | cons c t ih =>
    simp only [containsLC, Bool.or_eq_true, isPrefixOf_iff_ex, ih]
    constructor
    · rintro (⟨v, hv⟩ | ⟨u, v, rfl⟩)
      · exact ⟨[], v, by simpa using hv⟩
      · exact ⟨c :: u, v, rfl⟩
    · rintro ⟨u, v, h⟩
      cases u with
      | nil => exact Or.inl ⟨v, by simpa using h⟩
      | cons a u' =>
        right
        simp only [List.cons_append, List.cons.injEq] at h
        exact ⟨u', v, h.2⟩

lemma containsLC_of_parts (pat u v : List Char) :
    containsLC pat (u ++ pat ++ v) = true :=
  (containsLC_iff_parts pat _).mpr ⟨u, v, rfl⟩

lemma data_append (a b : String) : (a ++ b).data = a.data ++ b.data := by
  cases a; cases b; rfl

lemma findDocclass_ne_none {files : List (String × String)} {p : String × String}
    (hp : p ∈ files) (h : hasDocclass p = true) : findDocclass files ≠ none := by
  induction files with
  | nil => cases hp
  | cons q t ih =>
    by_cases hq : hasDocclass q = true
    · simp [findDocclass, hq]
    · rcases List.mem_cons.mp hp with rfl | hmem
      · exact absurd h hq
      · simp only [findDocclass, hq, ite_false, Bool.false_eq_true]
        exact ih hmem

lemma findDocclass_eq_none {files : List (String × String)}
    (h : ∀ p ∈ files, hasDocclass p = false) : findDocclass files = none := by
  induction files with
  | nil => rfl
  | cons p t ih =>
    simp only [findDocclass, h p (List.mem_cons_self p t), ite_false, Bool.false_eq_true]
    exact ih fun q hq => h q (List.mem_cons_of_mem p hq)

/-- C1: main-document selection.  For every list of (name, content) documents:
the empty list yields the empty placeholder `("", "")`; if no document
contains the document-class marker, the first document of the list is
returned; and if position `i` holds the first document whose content contains
the marker, that document is returned regardless of what comes before or
after it. -/
theorem find_main_tex_file_spec :
    (find_main_tex_file [] = ("", "")) ∧
    (∀ files : List (String × String),
      (∀ p ∈ files, hasDocclass p = false) →
      find_main_tex_file files = files.headD ("", "")) ∧
    (∀ (files : List (String × String)) (i : Nat) (h : i < files.length),
      hasDocclass (files.get ⟨i, h⟩) = true →
      (∀ j (hj : j < i), hasDocclass (files.get ⟨j, Nat.lt_trans hj h⟩) = false) →
      find_main_tex_file files = files.get ⟨i, h⟩) := by
  refine ⟨rfl, ?_, ?_⟩
  · intro files h
    cases files with
    | nil => rfl
    | cons p t =>
      simp only [find_main_tex_file, findDocclass_eq_none h, List.headD]
  · intro files i h hi hfirst
    induction files generalizing i with
    | nil => exact absurd h (Nat.not_lt_zero i)
    | cons p t ih =>
      cases i with
      | zero =>
        simp only [List.get] at hi
        simp only [find_main_tex_file, findDocclass, hi, ite_true, List.get]
      | succ i' =>
        have h0 : hasDocclass p = false := hfirst 0 (Nat.succ_pos i')
        have ht : i' < t.length := Nat.lt_of_succ_lt_succ h
        have hi' : hasDocclass (t.get ⟨i', ht⟩) = true := hi
        have hfirst' : ∀ j (hj : j < i'), hasDocclass (t.get ⟨j, Nat.lt_trans hj ht⟩) = false :=
          fun j hj => hfirst (j + 1) (Nat.succ_lt_succ hj)
        have := ih i' ht hi' hfirst'
        simp only [find_main_tex_file, findDocclass, h0, Bool.false_eq_true, ite_false,
          List.get] at this ⊢
        cases hfd : findDocclass t with
        | some q => simpa [hfd] using this
        | none =>
          exact absurd hfd (findDocclass_ne_none (t.get_mem i' ht) hi')

/-- C1 witness: among three documents where only the second and third contain
the marker, the second is selected. -/
theorem find_main_tex_file_spec_witness :
    find_main_tex_file
      [("a.tex", "no class here"),
       ("b.tex", "\\documentclass\x7barticle\x7d"),
       ("c.tex", "\\documentclass\x7bbook\x7d")] =
      ("b.tex", "\\documentclass\x7barticle\x7d") :=
  find_main_tex_file_spec.2.2
    [("a.tex", "no class here"),
     ("b.tex", "\\documentclass\x7barticle\x7d"),
     ("c.tex", "\\documentclass\x7bbook\x7d")] 1 (by decide) (by decide) (by decide)

lemma subDelimF_nil (dotAll : Bool) (opn close repl : List Char) (f : Nat) :
    subDelimF dotAll opn close repl f [] = [] := by
  cases f <;> rfl

lemma isPrefixOf_append (a b : List Char) : a.isPrefixOf (a ++ b) = true :=
  (isPrefixOf_iff_ex a (a ++ b)).mpr ⟨b, rfl⟩

lemma isPrefixOf_self (a : List Char) : a.isPrefixOf a = true :=
  (isPrefixOf_iff_ex a a).mpr ⟨[], by simp⟩

lemma findCloseIdx_true_append {close m : List Char}
    (hhead : close.head? = some '\\') (hm : '\\' ∉ m) :
    findCloseIdx true close (m ++ close) = some m.length := by
  induction m with
  | nil =>
    simp only [List.nil_append, List.length_nil]
    cases close with
    | nil => simp at hhead
    | cons a t =>
      simp only [findCloseIdx, isPrefixOf_self (a :: t), if_true]
  | cons c m' ih =>
    have hc : c ≠ '\\' := fun h => hm (h ▸ List.mem_cons_self c m')
    have hm' : '\\' ∉ m' := fun h => hm (List.mem_cons_of_mem c h)
    have hnp : close.isPrefixOf (c :: (m' ++ close)) = false := by
      cases hp : close.isPrefixOf (c :: (m' ++ close)) with
      | false => rfl
      | true =>
        rcases (isPrefixOf_iff_ex _ _).mp hp with ⟨t, ht⟩
        cases close with
        | nil => simp at hhead
        | cons a ct =>
          simp only [List.head?, Option.some.injEq] at hhead
          simp only [List.cons_append, List.cons.injEq] at ht
          exact absurd (ht.1.trans hhead) hc
    have hstep : findCloseIdx true close (c :: (m' ++ close)) =
        (findCloseIdx true close (m' ++ close)).map (· + 1) := by
      rw [findCloseIdx, if_neg (by simp [hnp]), if_neg (by simp)]
    rw [List.cons_append, hstep, ih hm']
    rfl

/-- C2: markup pre-cleaning.  `clean_tex_content` strips table, tabular and
figure environments and display/inline math in that fixed order with
non-greedy, dot-matches-newline spans; in particular a whole table
environment is removed in one piece by the first pass, so for any body `mid`
that contains no backslash (e.g. an inline-math expression such as `$x=1$`)
the cleaner maps `\begin{table} mid \end{table}` to the empty string — the
math inside the table is removed with the table. -/
theorem clean_tex_content_removes_table (mid : String) (debug : Bool)
    (h : '\\' ∉ mid.data) :
    clean_tex_content ("\\begin\x7btable\x7d" ++ mid ++ "\\end\x7btable\x7d") debug = "" := by
  have hdata : ("\\begin\x7btable\x7d" ++ mid ++ "\\end\x7btable\x7d").data =
      "\\begin\x7btable\x7d".data ++ (mid.data ++ "\\end\x7btable\x7d".data) := by
    rw [data_append, data_append, List.append_assoc]
  have hfirst : subDelim true "\\begin\x7btable\x7d".data "\\end\x7btable\x7d".data []
      ("\\begin\x7btable\x7d".data ++ (mid.data ++ "\\end\x7btable\x7d".data)) = [] := by
    unfold subDelim
    set L := "\\begin\x7btable\x7d".data ++ (mid.data ++ "\\end\x7btable\x7d".data) with hL
    have hpos : 0 < L.length := by
      rw [hL, List.length_append]
      have h13 : ("\\begin\x7btable\x7d".data).length = 13 := rfl
      omega
    obtain ⟨f, hf⟩ : ∃ f, L.length = f + 1 := ⟨L.length - 1, by omega⟩
    rw [hf]
    have hLcons : L = '\\' :: ("begin\x7btable\x7d".data ++ (mid.data ++ "\\end\x7btable\x7d".data)) := by
      simp [hL]
    rw [hLcons]
    have hpre : ("\\begin\x7btable\x7d".data).isPrefixOf
        ('\\' :: ("begin\x7btable\x7d".data ++ (mid.data ++ "\\end\x7btable\x7d".data))) = true := by
      have h0 := isPrefixOf_append "\\begin\x7btable\x7d".data (mid.data ++ "\\end\x7btable\x7d".data)
      exact h0
    rw [subDelimF, if_pos hpre]
    have hdrop : List.drop ("\\begin\x7btable\x7d".data).length
        ('\\' :: ("begin\x7btable\x7d".data ++ (mid.data ++ "\\end\x7btable\x7d".data))) =
        mid.data ++ "\\end\x7btable\x7d".data := by
      have : ('\\' :: ("begin\x7btable\x7d".data ++ (mid.data ++ "\\end\x7btable\x7d".data))) =
          "\\begin\x7btable\x7d".data ++ (mid.data ++ "\\end\x7btable\x7d".data) := by
        rfl
      rw [this, List.drop_left]
    rw [hdrop, findCloseIdx_true_append (by rfl) h]
    have hdropall : List.drop (mid.data.length + ("\\end\x7btable\x7d".data).length)
        (mid.data ++ "\\end\x7btable\x7d".data) = [] := by
      rw [← List.length_append]
      exact List.drop_length _
    show [] ++ subDelimF true "\\begin\x7btable\x7d".data "\\end\x7btable\x7d".data [] f
        (List.drop (mid.data.length + ("\\end\x7btable\x7d".data).length)
          (mid.data ++ "\\end\x7btable\x7d".data)) = []
    rw [hdropall, subDelimF_nil]
    rfl
  show (⟨clean_tex_contentL _⟩ : String) = ""
  rw [show ("" : String) = ⟨[]⟩ from rfl]
  unfold clean_tex_contentL
  rw [hdata, hfirst]
  simp [subDelim, subDelimF_nil]

/-- C2 witness: a table containing the inline-math expression `$x=1$` is
removed in its entirety by the pre-cleaner. -/
theorem clean_tex_content_removes_table_witness :
    clean_tex_content ("\\begin\x7btable\x7d" ++ "$x=1$" ++ "\\end\x7btable\x7d") true = "" :=
  clean_tex_content_removes_table "$x=1$" true (by decide)

/-! ### Pass-identity lemmas: a pass that never sees its trigger character
leaves the text unchanged (for every fuel value). -/

lemma sub_blankF_id {l : List Char} (h : '\n' ∉ l) : ∀ f, sub_blankF f l = l := by
  induction l with
  | nil => intro f; cases f <;> rfl
  | cons c t ih =>
    intro f
    cases f with
    | zero => rfl
    | succ f =>
      have hc : ¬(c = '\n') := fun hc => h (hc ▸ List.mem_cons_self c t)
      rw [sub_blankF, if_neg hc, ih (fun hm => h (List.mem_cons_of_mem c hm)) f]

lemma subDelimF_id {dotAll : Bool} {os close repl l : List Char} (h : '\\' ∉ l) :
    ∀ f, subDelimF dotAll ('\\' :: os) close repl f l = l := by
  induction l with
  | nil => intro f; cases f <;> rfl
  | cons c t ih =>
    intro f
    cases f with
    | zero => rfl
    | succ f =>
      have hc : c ≠ '\\' := fun hc => h (hc ▸ List.mem_cons_self c t)
      have hp : (('\\' :: os).isPrefixOf (c :: t)) = false := by
        simp only [List.isPrefixOf, Bool.and_eq_false_iff]
        left
        exact beq_eq_false_iff_ne.mpr (Ne.symm hc)
      rw [subDelimF, if_neg (by simp [hp]), ih (fun hm => h (List.mem_cons_of_mem c hm)) f]

lemma sub_cmdF_id {l : List Char} (h : '\\' ∉ l) : ∀ f, sub_cmdF f l = l := by
  induction l with
  | nil => intro f; cases f <;> rfl
  | cons c t ih =>
    intro f
    cases f with
    | zero => rfl
    | succ f =>
      have hc : ¬(c = '\\') := fun hc => h (hc ▸ List.mem_cons_self c t)
      rw [sub_cmdF, if_neg hc, ih (fun hm => h (List.mem_cons_of_mem c hm)) f]

lemma sub_citTokF_id {l : List Char} (h : '<' ∉ l) : ∀ f, sub_citTokF f l = l := by
  induction l with
  | nil => intro f; cases f <;> rfl
  | cons c t ih =>
    intro f
    cases f with
    | zero => rfl
    | succ f =>
      have hc : ¬(c = '<') := fun hc => h (hc ▸ List.mem_cons_self c t)
      rw [sub_citTokF, if_neg hc, ih (fun hm => h (List.mem_cons_of_mem c hm)) f]

lemma sub_refTokF_id {l : List Char} (h : '<' ∉ l) : ∀ f, sub_refTokF f l = l := by
  induction l with
  | nil => intro f; cases f <;> rfl
  | cons c t ih =>
    intro f
    cases f with
    | zero => rfl
    | succ f =>
      have hc : ¬(c = '<') := fun hc => h (hc ▸ List.mem_cons_self c t)
      rw [sub_refTokF, if_neg hc, ih (fun hm => h (List.mem_cons_of_mem c hm)) f]

lemma sub_urlF_id {l : List Char} (h : '<' ∉ l) : ∀ f, sub_urlF f l = l := by
  induction l with
  | nil => intro f; cases f <;> rfl
  | cons c t ih =>
    intro f
    cases f with
    | zero => rfl
    | succ f =>
      have hc : ¬(c = '<') := fun hc => h (hc ▸ List.mem_cons_self c t)
      rw [sub_urlF, if_neg hc, ih (fun hm => h (List.mem_cons_of_mem c hm)) f]

lemma sub_singleNl_id {l : List Char} (h : '\n' ∉ l) :
    ∀ prev, sub_singleNl prev l = l := by
  induction l with
  | nil => intro prev; rfl
  | cons c t ih =>
    intro prev
    have hc : ¬(c = '\n') := fun hc => h (hc ▸ List.mem_cons_self c t)
    rw [sub_singleNl, if_neg (fun hand => hc hand.1),
      ih (fun hm => h (List.mem_cons_of_mem c hm)) (some c)]

lemma sub13F_id {l : List Char} (h : '\n' ∉ l) : ∀ f, sub13F f l = l := by
  induction l with
  | nil => intro f; cases f <;> rfl
  | cons c t ih =>
    intro f
    cases f with
    | zero => rfl
    | succ f =>
      have hc : ¬(c = '\n') := fun hc => h (hc ▸ List.mem_cons_self c t)
      cases t with
      | nil => rfl
      | cons b t2 =>
        rw [sub13F, if_neg (fun hand => hc hand.1),
          ih (fun hm => h (List.mem_cons_of_mem c hm)) f]

lemma dropWhile_head_not (p : Char → Bool) (l : List Char) :
    ∀ c, (l.dropWhile p).head? = some c → p c = false := by
  induction l with
  | nil => intro c hc; simp [List.dropWhile] at hc
  | cons a t ih =>
    intro c hc
    by_cases hpa : p a = true
    · rw [List.dropWhile_cons_of_pos hpa] at hc
      exact ih c hc
    · rw [List.dropWhile_cons_of_neg hpa] at hc
      simp only [List.head?, Option.some.injEq] at hc
      rw [← hc]
      exact Bool.eq_false_iff.mpr hpa

lemma strippedL_intro {l : List Char}
    (h1 : ∀ c, l.head? = some c → isPySpace c = false)
    (h2 : ∀ c, l.getLast? = some c → isPySpace c = false) : strippedL l = true := by
  unfold strippedL
  cases hh : l.head? with
  | none =>
    cases hg : l.getLast? with
    | none => rfl
    | some c => simp [h2 c hg]
  | some c =>
    cases hg : l.getLast? with
    | none => simp [h1 c hh]
    | some d => simp [h1 c hh, h2 d hg]

lemma pyStrip_stripped (l : List Char) : strippedL (pyStrip l) = true := by
  unfold pyStrip
  apply strippedL_intro
  · intro c hc
    rw [List.head?_reverse] at hc
    have hBne : ((l.dropWhile isPySpace).reverse.dropWhile isPySpace) ≠ [] := by
      intro he
      rw [he] at hc
      cases hc
    have hlast : ((l.dropWhile isPySpace).reverse.dropWhile isPySpace).getLast? =
        (l.dropWhile isPySpace).reverse.getLast? := by
      conv_rhs => rw [← List.takeWhile_append_dropWhile isPySpace (l.dropWhile isPySpace).reverse]
      rw [List.getLast?_append_of_ne_nil _ hBne]
    rw [hlast, List.getLast?_reverse] at hc
    exact dropWhile_head_not isPySpace l c hc
  · intro c hc
    rw [List.getLast?_reverse] at hc
    exact dropWhile_head_not isPySpace _ c hc

lemma strippedL_head {l : List Char} {c : Char} (h : strippedL l = true)
    (hc : l.head? = some c) : isPySpace c = false := by
  unfold strippedL at h
  rw [hc] at h
  rcases Bool.and_eq_true_iff.mp h with ⟨h1, _⟩
  simpa using h1

lemma strippedL_getLast {l : List Char} {c : Char} (h : strippedL l = true)
    (hc : l.getLast? = some c) : isPySpace c = false := by
  unfold strippedL at h
  rw [hc] at h
  rcases Bool.and_eq_true_iff.mp h with ⟨_, h2⟩
  simpa using h2

lemma dropWhile_id_of_head {p : Char → Bool} {x : List Char}
    (h : ∀ c, x.head? = some c → p c = false) : x.dropWhile p = x := by
  cases x with
  | nil => rfl
  | cons a t =>
    rw [List.dropWhile_cons_of_neg]
    rw [h a rfl]
    exact Bool.false_ne_true

lemma pyStrip_id {l : List Char} (h : strippedL l = true) : pyStrip l = l := by
  unfold pyStrip
  have h1 : l.dropWhile isPySpace = l :=
    dropWhile_id_of_head (fun c hc => strippedL_head h hc)
  rw [h1]
  have h2 : l.reverse.dropWhile isPySpace = l.reverse :=
    dropWhile_id_of_head (fun c hc => strippedL_getLast h (by rwa [List.head?_reverse] at hc))
  rw [h2, List.reverse_reverse]

lemma mk_data (t : String) : (⟨t.data⟩ : String) = t := by
  cases t
  rfl

/-- Every output of `clean_text` is stripped: the source's final
`text.strip()` guarantees no leading or trailing whitespace. -/
lemma clean_textL_ends_strip (l : List Char) : ∃ m, clean_textL l = pyStrip m :=
  ⟨_, rfl⟩

lemma clean_textWith_data (fix : String → String) (s : String) :
    (clean_textWith fix s).data = clean_textL (fix s).data := by
  have h : clean_textWith fix s = ⟨clean_textL (fix s).data⟩ := rfl
  rw [h]

lemma clean_text_data (s : String) :
    (clean_text s).data = clean_textL (fix_text s).data :=
  clean_textWith_data fix_text s

lemma clean_textWith_stripped (fix : String → String) (s : String) :
    strippedL (clean_textWith fix s).data = true := by
  obtain ⟨m, hm⟩ := clean_textL_ends_strip (fix s).data
  rw [clean_textWith_data, hm]
  exact pyStrip_stripped m

lemma clean_text_stripped (s : String) : strippedL (clean_text s).data = true :=
  clean_textWith_stripped fix_text s

/-- A text containing no backslash, no `<` and no newline, with no
leading/trailing whitespace, passes through every normalizer pass
unchanged. -/
lemma clean_textL_id {l : List Char} (h1 : '\\' ∉ l) (h2 : '<' ∉ l)
    (h3 : '\n' ∉ l) (h4 : strippedL l = true) : clean_textL l = l := by
  show pyStrip (sub13 (sub_singleNl none (sub_url (sub_refTok (sub_citTok (sub_cmd
    (subDelim false "\\end\x7b".data ['\x7d'] [] (subDelim false "\\begin\x7b".data ['\x7d'] []
      (subDelim false "\\label\x7b".data ['\x7d'] [] (subDelim false "\\ref\x7b".data ['\x7d'] "<ref>".data
        (subDelim false "\\cite\x7b".data ['\x7d'] "<cit.>".data (sub_blank l)))))))))))) = l
  unfold sub_blank subDelim sub_cmd sub_citTok sub_refTok sub_url sub13
  rw [sub_blankF_id h3]
  rw [subDelimF_id h1, subDelimF_id h1, subDelimF_id h1, subDelimF_id h1, subDelimF_id h1]
  rw [sub_cmdF_id h1, sub_citTokF_id h2, sub_refTokF_id h2, sub_urlF_id h2]
  rw [sub_singleNl_id h3, sub13F_id h3, pyStrip_id h4]

/-- C3 counterexample: the Text Normalizer is not idempotent.  On input
`\ci<ref>te{x}` the first application deletes the literal `<ref>` token,
which concatenates the surrounding fragments into `\cite{x}`; the second
application then rewrites that to the citation placeholder and deletes it,
yielding the empty string. -/
theorem clean_text_not_idempotent :
    ¬(clean_text (clean_text "\\ci<ref>te\x7bx\x7d") = clean_text "\\ci<ref>te\x7bx\x7d") := by
  decide

/-- C3 (amended): for an arbitrary sanitization capability `fix`, the Text
Normalizer is idempotent on every input whose normalized output is a fixed
point of the sanitizer (the sanitizer finds no mojibake or ligature
artifacts to repair in it — its specified behaviour on artifact-free text)
and contains no backslash, no `<` and no newline; on such outputs (already
stripped, by the final `strip()`) every pass is the identity.  Unrestricted
idempotence fails because deletion passes can concatenate fragments into
new command or placeholder tokens, and because the blank-line pass of a
second run collapses the three-newline runs that the `(\n\n)+` pass can
leave behind. -/
theorem clean_text_idempotent_of_plain (fix : String → String) (s : String)
    (hfix : fix (clean_textWith fix s) = clean_textWith fix s)
    (h1 : '\\' ∉ (clean_textWith fix s).data) (h2 : '<' ∉ (clean_textWith fix s).data)
    (h3 : '\n' ∉ (clean_textWith fix s).data) :
    clean_textWith fix (clean_textWith fix s) = clean_textWith fix s := by
  have key : clean_textL (clean_textWith fix s).data = (clean_textWith fix s).data :=
    clean_textL_id h1 h2 h3 (clean_textWith_stripped fix s)
  calc clean_textWith fix (clean_textWith fix s)
      = ⟨clean_textL (fix (clean_textWith fix s)).data⟩ := rfl
    _ = ⟨clean_textL (clean_textWith fix s).data⟩ := by rw [hfix]
    _ = ⟨(clean_textWith fix s).data⟩ := by rw [key]
    _ = clean_textWith fix s := mk_data _

/-- C3 witness: with the program's sanitizer on a plain-ASCII, artifact-free
text (where the sanitizer, by its spec, changes nothing), the normalizer's
output is a fixed point. -/
theorem clean_text_idempotent_of_plain_witness :
    clean_textWith fix_text (clean_textWith fix_text "hello world") =
      clean_textWith fix_text "hello world" :=
  clean_text_idempotent_of_plain fix_text "hello world" rfl
    (by decide) (by decide) (by decide)

/-! ### Blank-line runs after the `(\n\n)+` pass -/

lemma takePairs_len : ∀ l : List Char, (takePairs l).2.length ≤ l.length := by
  intro l
  induction l using takePairs.induct with
  | case1 a b rest hab ih =>
    rw [takePairs, if_pos hab]
    simpa using Nat.le_trans ih (by omega)
  | case2 a b rest hab =>
    rw [takePairs, if_neg hab]
  | case3 l hshape => cases l with
    | nil => simp [takePairs]
    | cons a t =>
      cases t with
      | nil => simp [takePairs]
      | cons b t2 => exact absurd rfl (hshape a b t2)

lemma takePairs_not_pair : ∀ l : List Char,
    ['\n', '\n'].isPrefixOf (takePairs l).2 = false := by
  intro l
  induction l using takePairs.induct with
  | case1 a b rest hab ih =>
    rw [takePairs, if_pos hab]
    exact ih
  | case2 a b rest hab =>
    rw [takePairs, if_neg hab]
    by_cases ha : a = '\n'
    · by_cases hb : b = '\n'
      · exact absurd ⟨ha, hb⟩ hab
      · simp [List.isPrefixOf, ha, beq_eq_false_iff_ne.mpr (Ne.symm hb)]
    · simp [List.isPrefixOf, beq_eq_false_iff_ne.mpr (Ne.symm ha)]
  | case3 l hshape => cases l with
    | nil => simp [takePairs, List.isPrefixOf]
    | cons a t =>
      cases t with
      | nil => simp [takePairs, List.isPrefixOf]
      | cons b t2 => exact absurd rfl (hshape a b t2)

lemma sub13F_head : ∀ (f : Nat) (l : List Char), (sub13F f l).head? = l.head? := by
  intro f l
  cases f with
  | zero => rfl
  | succ f =>
    cases l with
    | nil => rfl
    | cons a t =>
      cases t with
      | nil => rfl
      | cons b t2 =>
        by_cases hab : a = '\n' ∧ b = '\n'
        · rw [sub13F, if_pos hab]
          rw [hab.1]
          rfl
        · rw [sub13F, if_neg hab]
          rfl

lemma pfx_nl_of_head {X : List Char} {b : Char} (hb : X.head? = some b)
    (hbn : b ≠ '\n') : ['\n'].isPrefixOf X = false := by
  cases X with
  | nil => cases hb
  | cons x t =>
    simp only [List.head?, Option.some.injEq] at hb
    have hx : '\n' ≠ x := fun he => hbn (by rw [← hb]; exact he.symm)
    simp [List.isPrefixOf, beq_eq_false_iff_ne.mpr hx]

lemma sub13F_not_pair : ∀ (f : Nat) (r : List Char),
    ['\n', '\n'].isPrefixOf r = false → ['\n', '\n'].isPrefixOf (sub13F f r) = false := by
  intro f
  induction f with
  | zero => intro r h; exact h
  | succ f ih =>
    intro r h
    cases r with
    | nil => simp [sub13F, List.isPrefixOf]
    | cons c t =>
      cases t with
      | nil =>
        show ['\n', '\n'].isPrefixOf [c] = false
        simp [List.isPrefixOf]
      | cons b t2 =>
        have hcb : ¬(c = '\n' ∧ b = '\n') := by
          intro hcb
          rw [hcb.1, hcb.2] at h
          simp [List.isPrefixOf] at h
        rw [sub13F, if_neg hcb]
        by_cases hc : c = '\n'
        · have hb : b ≠ '\n' := fun hb => hcb ⟨hc, hb⟩
          have hhead : (sub13F f (b :: t2)).head? = some b := by
            rw [sub13F_head]
            rfl
          simp only [List.isPrefixOf, Bool.and_eq_false_iff]
          right
          exact pfx_nl_of_head hhead hb
        · simp [List.isPrefixOf, beq_eq_false_iff_ne.mpr (Ne.symm hc)]

lemma pfx_two_of_three {X : List Char}
    (h : ['\n', '\n', '\n'].isPrefixOf X = true) : ['\n', '\n'].isPrefixOf X = true := by
  rcases (isPrefixOf_iff_ex _ _).mp h with ⟨t, rfl⟩
  exact (isPrefixOf_iff_ex _ _).mpr ⟨'\n' :: t, rfl⟩

/-- After the `(\n\n)+` pass no four consecutive newlines remain: every
maximal newline run of length at least two is rewritten to two newlines
plus at most one leftover. -/
lemma sub13F_no4 : ∀ (f : Nat) (l : List Char), l.length ≤ f →
    containsLC ['\n', '\n', '\n', '\n'] (sub13F f l) = false := by
  intro f
  induction f with
  | zero =>
    intro l hl
    rw [List.length_eq_zero.mp (Nat.le_zero.mp hl)]
    rfl
  | succ f ih =>
    intro l hl
    cases l with
    | nil => rfl
    | cons a t =>
      cases t with
      | nil =>
        show containsLC ['\n', '\n', '\n', '\n'] [a] = false
        simp [containsLC, List.isPrefixOf]
      | cons b t2 =>
        simp only [List.length_cons] at hl
        by_cases hab : a = '\n' ∧ b = '\n'
        · rw [sub13F, if_pos hab]
          have hlen : (takePairs t2).2.length ≤ f :=
            Nat.le_trans (takePairs_len t2) (by omega)
          have hX : containsLC ['\n', '\n', '\n', '\n'] (sub13F f (takePairs t2).2) = false :=
            ih _ hlen
          have htwo : ['\n', '\n'].isPrefixOf (sub13F f (takePairs t2).2) = false :=
            sub13F_not_pair f _ (takePairs_not_pair t2)
          rw [containsLC, containsLC, hX]
          have hp1 : (['\n', '\n', '\n', '\n'] : List Char).isPrefixOf
              ('\n' :: '\n' :: sub13F f (takePairs t2).2) = false := by
            simp only [List.isPrefixOf, beq_self_eq_true, Bool.true_and]
            exact htwo
          have hp2 : (['\n', '\n', '\n', '\n'] : List Char).isPrefixOf
              ('\n' :: sub13F f (takePairs t2).2) = false := by
            simp only [List.isPrefixOf, beq_self_eq_true, Bool.true_and]
            cases h3 : (['\n', '\n', '\n'] : List Char).isPrefixOf (sub13F f (takePairs t2).2) with
            | false => rfl
            | true => rw [pfx_two_of_three h3] at htwo; cases htwo
          rw [hp1, hp2]
          rfl
        · rw [sub13F, if_neg hab]
          have hX : containsLC ['\n', '\n', '\n', '\n'] (sub13F f (b :: t2)) = false :=
            ih _ (by simp only [List.length_cons]; omega)
          rw [containsLC, hX]
          have hp : (['\n', '\n', '\n', '\n'] : List Char).isPrefixOf
              (a :: sub13F f (b :: t2)) = false := by
            by_cases ha : a = '\n'
            · have hb : b ≠ '\n' := fun hb => hab ⟨ha, hb⟩
              have hhead : (sub13F f (b :: t2)).head? = some b := by
                rw [sub13F_head]
                rfl
              simp only [List.isPrefixOf, ha, beq_self_eq_true, Bool.true_and]
              cases h3 : (['\n', '\n', '\n'] : List Char).isPrefixOf (sub13F f (b :: t2)) with
              | false => rfl
              | true =>
                rcases (isPrefixOf_iff_ex _ _).mp h3 with ⟨u, hu⟩
                rw [hu] at hhead
                simp only [List.cons_append, List.head?_cons, Option.some.injEq] at hhead
                exact absurd hhead.symm hb
            · simp [List.isPrefixOf, beq_eq_false_iff_ne.mpr (Ne.symm ha)]
          rw [hp]
          rfl

lemma pyStrip_parts (l : List Char) : ∃ u v, l = u ++ pyStrip l ++ v := by
  refine ⟨l.takeWhile isPySpace,
    ((l.dropWhile isPySpace).reverse.takeWhile isPySpace).reverse, ?_⟩
  conv_lhs => rw [← List.takeWhile_append_dropWhile isPySpace l]
  rw [List.append_assoc]
  congr 1
  have h : (l.dropWhile isPySpace).reverse =
      (l.dropWhile isPySpace).reverse.takeWhile isPySpace ++
      (l.dropWhile isPySpace).reverse.dropWhile isPySpace :=
    (List.takeWhile_append_dropWhile isPySpace _).symm
  have h2 := congrArg List.reverse h
  rw [List.reverse_reverse, List.reverse_append] at h2
  exact h2

lemma containsLC_pyStrip {pat l : List Char}
    (h : containsLC pat (pyStrip l) = true) : containsLC pat l = true := by
  rcases (containsLC_iff_parts _ _).mp h with ⟨a, b, hab⟩
  rcases pyStrip_parts l with ⟨u, v, huv⟩
  refine (containsLC_iff_parts _ _).mpr ⟨u ++ a, b ++ v, ?_⟩
  rw [huv, hab]
  simp [List.append_assoc]

/-- C6 counterexample: on `a\n\label{q}\n\nb<re<ref>f>c` the normalizer
outputs `a\n\n\nb<ref>c`, which contains a three-newline run (deleting
`\label{q}` merges newline runs, and `(\n\n)+` only collapses pairs) and a
literal `<ref>` token (re-formed by the token-deletion pass itself). -/
theorem clean_text_postcondition_counterexample :
    ¬cleanedTextClaim (clean_text "a\n\\label\x7bq\x7d\n\nb<re<ref>f>c") := by
  intro h
  rcases h with ⟨h1, _, _, _⟩
  have : containsLC ['\n', '\n', '\n']
      (clean_text "a\n\\label\x7bq\x7d\n\nb<re<ref>f>c").data = true := by decide
  rw [this] at h1
  cases h1

/-- C6 (amended): every output of `clean_text` has no leading or trailing
whitespace (the final `strip()`), and never contains four or more
consecutive newlines (the `(\n\n)+` pass leaves runs of at most three).
Three-newline runs and re-formed placeholder tokens can occur, as the
counterexample shows. -/
theorem clean_text_postcondition (s : String) :
    strippedL (clean_text s).data = true ∧
    containsLC ['\n', '\n', '\n', '\n'] (clean_text s).data = false := by
  refine ⟨clean_text_stripped s, ?_⟩
  obtain ⟨m12, hm⟩ : ∃ m, clean_textL (fix_text s).data = pyStrip (sub13 m) := ⟨_, rfl⟩
  rw [clean_text_data, hm]
  cases hc : containsLC ['\n', '\n', '\n', '\n'] (pyStrip (sub13 m12)) with
  | false => rfl
  | true =>
    have h4 := containsLC_pyStrip hc
    rw [show sub13 m12 = sub13F m12.length m12 from rfl] at h4
    rw [sub13F_no4 m12.length m12 (Nat.le_refl _)] at h4
    cases h4

/-! ### Token deletion in context, for the universal form of C10 -/

lemma not_mem_cons_of {c d : Char} (h1 : c ≠ d) {l : List Char} (h2 : c ∉ l) :
    c ∉ d :: l := by
  intro hm
  rcases List.mem_cons.mp hm with h | h
  · exact h1 h
  · exact h2 h

/-- A text containing no backslash, no `<` and no newline passes unchanged
through every pass up to the final `strip()`. -/
lemma clean_textL_plain {l : List Char} (h1 : '\\' ∉ l) (h2 : '<' ∉ l)
    (h3 : '\n' ∉ l) : clean_textL l = pyStrip l := by
  show pyStrip (sub13 (sub_singleNl none (sub_url (sub_refTok (sub_citTok (sub_cmd
    (subDelim false "\\end\x7b".data ['\x7d'] [] (subDelim false "\\begin\x7b".data ['\x7d'] []
      (subDelim false "\\label\x7b".data ['\x7d'] [] (subDelim false "\\ref\x7b".data ['\x7d'] "<ref>".data
        (subDelim false "\\cite\x7b".data ['\x7d'] "<cit.>".data (sub_blank l)))))))))))) =
    pyStrip l
  unfold sub_blank subDelim sub_cmd sub_citTok sub_refTok sub_url sub13
  rw [sub_blankF_id h3]
  rw [subDelimF_id h1, subDelimF_id h1, subDelimF_id h1, subDelimF_id h1, subDelimF_id h1]
  rw [sub_cmdF_id h1, sub_citTokF_id h2, sub_refTokF_id h2, sub_urlF_id h2]
  rw [sub_singleNl_id h3, sub13F_id h3]

lemma subDelimF_skip_char {dotAll : Bool} {os close repl : List Char} {c : Char}
    (hc : c ≠ '\\') {t : List Char}
    (ht : ∀ f, subDelimF dotAll ('\\' :: os) close repl f t = t) :
    ∀ f, subDelimF dotAll ('\\' :: os) close repl f (c :: t) = c :: t := by
  intro f
  cases f with
  | zero => rfl
  | succ f =>
    have hp : (('\\' :: os).isPrefixOf (c :: t)) = false := by
      simp only [List.isPrefixOf, Bool.and_eq_false_iff]
      left
      exact beq_eq_false_iff_ne.mpr (Ne.symm hc)
    rw [subDelimF, if_neg (by simp [hp]), ht f]

lemma subDelimF_id_append {dotAll : Bool} {os close repl l : List Char}
    (hl : ∀ f, subDelimF dotAll ('\\' :: os) close repl f l = l) :
    ∀ a : List Char, (∀ c ∈ a, c ≠ '\\') →
      ∀ f, subDelimF dotAll ('\\' :: os) close repl f (a ++ l) = a ++ l := by
  intro a
  induction a with
  | nil =>
    intro _ f
    rw [List.nil_append]
    exact hl f
  | cons c a' ih =>
    intro ha f
    rw [List.cons_append]
    exact subDelimF_skip_char (ha c (List.mem_cons_self c a'))
      (ih (fun d hd => ha d (List.mem_cons_of_mem c hd))) f

/-- None of the `\X{` openers can match inside a literal `<cit·>` token: at
the wildcard position the character after it is `>`, which never equals the
second character of an opener. -/
lemma subDelimF_cit_token_id (dotAll : Bool) (o2 : Char) (os close repl : List Char)
    (ho2 : o2 ≠ '>') {b : List Char} (hb : '\\' ∉ b) (x : Char) :
    ∀ f, subDelimF dotAll ('\\' :: o2 :: os) close repl f
      ('<' :: 'c' :: 'i' :: 't' :: x :: '>' :: b) =
      '<' :: 'c' :: 'i' :: 't' :: x :: '>' :: b := by
  have htail : ∀ f, subDelimF dotAll ('\\' :: o2 :: os) close repl f (x :: '>' :: b) =
      x :: '>' :: b := by
    intro f
    cases f with
    | zero => rfl
    | succ f =>
      have hp : (('\\' :: o2 :: os).isPrefixOf (x :: '>' :: b)) = false := by
        simp only [List.isPrefixOf]
        rw [beq_eq_false_iff_ne.mpr ho2]
        simp
      rw [subDelimF, if_neg (by simp [hp]),
        subDelimF_id (not_mem_cons_of (by decide) hb) f]
  have h4 := subDelimF_skip_char (show ('t' : Char) ≠ '\\' by decide) htail
  have h3 := subDelimF_skip_char (show ('i' : Char) ≠ '\\' by decide) h4
  have h2 := subDelimF_skip_char (show ('c' : Char) ≠ '\\' by decide) h3
  exact subDelimF_skip_char (show ('<' : Char) ≠ '\\' by decide) h2

lemma sub_cmdF_skip_char {c : Char} (hc : c ≠ '\\') {t : List Char}
    (ht : ∀ f, sub_cmdF f t = t) : ∀ f, sub_cmdF f (c :: t) = c :: t := by
  intro f
  cases f with
  | zero => rfl
  | succ f => rw [sub_cmdF, if_neg hc, ht f]

lemma sub_cmdF_id_append {l : List Char} (hl : ∀ f, sub_cmdF f l = l) :
    ∀ a : List Char, (∀ c ∈ a, c ≠ '\\') → ∀ f, sub_cmdF f (a ++ l) = a ++ l := by
  intro a
  induction a with
  | nil =>
    intro _ f
    rw [List.nil_append]
    exact hl f
  | cons c a' ih =>
    intro ha f
    rw [List.cons_append]
    exact sub_cmdF_skip_char (ha c (List.mem_cons_self c a'))
      (ih (fun d hd => ha d (List.mem_cons_of_mem c hd))) f

/-- The residual-command pass cannot match inside a literal `<cit·>` token:
even when the wildcard is a backslash, it is followed by `>`, so the
`[a-zA-Z]+` of the pattern finds no letters. -/
lemma sub_cmdF_cit_token_id {b : List Char} (hb : '\\' ∉ b) (x : Char) :
    ∀ f, sub_cmdF f ('<' :: 'c' :: 'i' :: 't' :: x :: '>' :: b) =
      '<' :: 'c' :: 'i' :: 't' :: x :: '>' :: b := by
  have htail : ∀ f, sub_cmdF f (x :: '>' :: b) = x :: '>' :: b := by
    intro f
    cases f with
    | zero => rfl
    | succ f =>
      by_cases hx : x = '\\'
      · subst hx
        rw [sub_cmdF, if_pos rfl]
        show '\\' :: sub_cmdF f ('>' :: b) = '\\' :: '>' :: b
        rw [sub_cmdF_id (not_mem_cons_of (by decide) hb) f]
      · rw [sub_cmdF, if_neg hx, sub_cmdF_id (not_mem_cons_of (by decide) hb) f]
  have h4 := sub_cmdF_skip_char (show ('t' : Char) ≠ '\\' by decide) htail
  have h3 := sub_cmdF_skip_char (show ('i' : Char) ≠ '\\' by decide) h4
  have h2 := sub_cmdF_skip_char (show ('c' : Char) ≠ '\\' by decide) h3
  exact sub_cmdF_skip_char (show ('<' : Char) ≠ '\\' by decide) h2

lemma sub_citTokF_skip_char {c : Char} (hc : c ≠ '<') {t : List Char}
    (ht : ∀ f, sub_citTokF f t = t) : ∀ f, sub_citTokF f (c :: t) = c :: t := by
  intro f
  cases f with
  | zero => rfl
  | succ f => rw [sub_citTokF, if_neg hc, ht f]

lemma sub_citTokF_id_append {l : List Char} (hl : ∀ f, sub_citTokF f l = l) :
    ∀ a : List Char, (∀ c ∈ a, c ≠ '<') → ∀ f, sub_citTokF f (a ++ l) = a ++ l := by
  intro a
  induction a with
  | nil =>
    intro _ f
    rw [List.nil_append]
    exact hl f
  | cons c a' ih =>
    intro ha f
    rw [List.cons_append]
    exact sub_citTokF_skip_char (ha c (List.mem_cons_self c a'))
      (ih (fun d hd => ha d (List.mem_cons_of_mem c hd))) f

/-- The `<cit.>` pass deletes a literal token in a `<`-free context: it
scans past the context, consumes the six token characters, and leaves the
rest untouched. -/
lemma sub_citTokF_removes {b : List Char} (hb : '<' ∉ b) {x : Char} (hx : x ≠ '\n') :
    ∀ (a : List Char) (f : Nat), (∀ c ∈ a, c ≠ '<') → a.length < f →
      sub_citTokF f (a ++ '<' :: 'c' :: 'i' :: 't' :: x :: '>' :: b) = a ++ b := by
  intro a
  induction a with
  | nil =>
    intro f _ hf
    obtain ⟨f', rfl⟩ : ∃ f', f = f' + 1 := ⟨f - 1, by omega⟩
    rw [List.nil_append, sub_citTokF, if_pos rfl]
    show (if x = '\n' then '<' :: sub_citTokF f' ('c' :: 'i' :: 't' :: x :: '>' :: b)
          else sub_citTokF f' b) = ([] : List Char) ++ b
    rw [if_neg hx, sub_citTokF_id hb f', List.nil_append]
  | cons c a' ih =>
    intro f hca hf
    obtain ⟨f', rfl⟩ : ∃ f', f = f' + 1 := ⟨f - 1, by omega⟩
    have hc : c ≠ '<' := hca c (List.mem_cons_self c a')
    rw [List.cons_append, sub_citTokF, if_neg hc,
      ih f' (fun d hd => hca d (List.mem_cons_of_mem c hd))
        (by simp only [List.length_cons] at hf; omega)]
    rfl

/-- The `<cit.>` pass leaves a literal `<ref>` token alone (`r` is not `c`). -/
lemma sub_citTokF_skips_ref {b : List Char} (hb : '<' ∉ b) :
    ∀ a : List Char, (∀ c ∈ a, c ≠ '<') →
      ∀ f, sub_citTokF f (a ++ '<' :: 'r' :: 'e' :: 'f' :: '>' :: b) =
        a ++ '<' :: 'r' :: 'e' :: 'f' :: '>' :: b := by
  have htok : ∀ f, sub_citTokF f ('<' :: 'r' :: 'e' :: 'f' :: '>' :: b) =
      '<' :: 'r' :: 'e' :: 'f' :: '>' :: b := by
    intro f
    cases f with
    | zero => rfl
    | succ f =>
      rw [sub_citTokF, if_pos rfl]
      show '<' :: sub_citTokF f ('r' :: 'e' :: 'f' :: '>' :: b) =
        '<' :: 'r' :: 'e' :: 'f' :: '>' :: b
      rw [sub_citTokF_id (not_mem_cons_of (by decide) (not_mem_cons_of (by decide)
        (not_mem_cons_of (by decide) (not_mem_cons_of (by decide) hb)))) f]
  exact sub_citTokF_id_append htok

/-- The `<ref>` pass deletes a literal token in a `<`-free context. -/
lemma sub_refTokF_removes {b : List Char} (hb : '<' ∉ b) :
    ∀ (a : List Char) (f : Nat), (∀ c ∈ a, c ≠ '<') → a.length < f →
      sub_refTokF f (a ++ '<' :: 'r' :: 'e' :: 'f' :: '>' :: b) = a ++ b := by
  intro a
  induction a with
  | nil =>
    intro f _ hf
    obtain ⟨f', rfl⟩ : ∃ f', f = f' + 1 := ⟨f - 1, by omega⟩
    rw [List.nil_append, sub_refTokF, if_pos rfl]
    show sub_refTokF f' b = ([] : List Char) ++ b
    rw [sub_refTokF_id hb f', List.nil_append]
  | cons c a' ih =>
    intro f hca hf
    obtain ⟨f', rfl⟩ : ∃ f', f = f' + 1 := ⟨f - 1, by omega⟩
    have hc : c ≠ '<' := hca c (List.mem_cons_self c a')
    rw [List.cons_append, sub_refTokF, if_neg hc,
      ih f' (fun d hd => hca d (List.mem_cons_of_mem c hd))
        (by simp only [List.length_cons] at hf; omega)]
    rfl

/-- The full normalizer pass chain maps a literal `<cit·>` token in a plain
context to the deleted form: the token survives every pass before the
`<cit.>`-deletion pass (which removes exactly it) and the remaining passes
are the identity. -/
lemma clean_textL_cit {a b : List Char} (x : Char)
    (haS : ∀ c ∈ a, c ≠ '\\') (haL : ∀ c ∈ a, c ≠ '<') (haN : ∀ c ∈ a, c ≠ '\n')
    (hbS : '\\' ∉ b) (hbL : '<' ∉ b) (hbN : '\n' ∉ b) (hx : x ≠ '\n') :
    clean_textL (a ++ '<' :: 'c' :: 'i' :: 't' :: x :: '>' :: b) = pyStrip (a ++ b) := by
  have hnlL : '\n' ∉ a ++ '<' :: 'c' :: 'i' :: 't' :: x :: '>' :: b := by
    intro hm
    rcases List.mem_append.mp hm with h | h
    · exact haN _ h rfl
    · simp only [List.mem_cons] at h
      rcases h with h | h | h | h | h | h | h
      · exact absurd h (by decide)
      · exact absurd h (by decide)
      · exact absurd h (by decide)
      · exact absurd h (by decide)
      · exact hx h.symm
      · exact absurd h (by decide)
      · exact hbN h
  have hnlab : '\n' ∉ a ++ b := by
    intro hm
    rcases List.mem_append.mp hm with h | h
    · exact haN _ h rfl
    · exact hbN h
  have hltab : '<' ∉ a ++ b := by
    intro hm
    rcases List.mem_append.mp hm with h | h
    · exact haL _ h rfl
    · exact hbL h
  show pyStrip (sub13 (sub_singleNl none (sub_url (sub_refTok (sub_citTok (sub_cmd
    (subDelim false "\\end\x7b".data ['\x7d'] [] (subDelim false "\\begin\x7b".data ['\x7d'] []
      (subDelim false "\\label\x7b".data ['\x7d'] [] (subDelim false "\\ref\x7b".data ['\x7d'] "<ref>".data
        (subDelim false "\\cite\x7b".data ['\x7d'] "<cit.>".data
          (sub_blank (a ++ '<' :: 'c' :: 'i' :: 't' :: x :: '>' :: b))))))))))))) =
    pyStrip (a ++ b)
  unfold sub_blank subDelim sub_cmd sub_citTok sub_refTok sub_url sub13
  rw [sub_blankF_id hnlL]
  have hcite : ∀ f, subDelimF false "\\cite\x7b".data ['\x7d'] "<cit.>".data f
      (a ++ '<' :: 'c' :: 'i' :: 't' :: x :: '>' :: b) =
      a ++ '<' :: 'c' :: 'i' :: 't' :: x :: '>' :: b := by
    have e : "\\cite\x7b".data = '\\' :: 'c' :: 'i' :: 't' :: 'e' :: '\x7b' :: [] := rfl
    rw [e]
    exact subDelimF_id_append
      (subDelimF_cit_token_id false 'c' ('i' :: 't' :: 'e' :: '\x7b' :: []) ['\x7d']
        "<cit.>".data (by decide) hbS x) a haS
  have hrefp : ∀ f, subDelimF false "\\ref\x7b".data ['\x7d'] "<ref>".data f
      (a ++ '<' :: 'c' :: 'i' :: 't' :: x :: '>' :: b) =
      a ++ '<' :: 'c' :: 'i' :: 't' :: x :: '>' :: b := by
    have e : "\\ref\x7b".data = '\\' :: 'r' :: 'e' :: 'f' :: '\x7b' :: [] := rfl
    rw [e]
    exact subDelimF_id_append
      (subDelimF_cit_token_id false 'r' ('e' :: 'f' :: '\x7b' :: []) ['\x7d']
        "<ref>".data (by decide) hbS x) a haS
  have hlabelp : ∀ f, subDelimF false "\\label\x7b".data ['\x7d'] [] f
      (a ++ '<' :: 'c' :: 'i' :: 't' :: x :: '>' :: b) =
      a ++ '<' :: 'c' :: 'i' :: 't' :: x :: '>' :: b := by
    have e : "\\label\x7b".data = '\\' :: 'l' :: 'a' :: 'b' :: 'e' :: 'l' :: '\x7b' :: [] := rfl
    rw [e]
    exact subDelimF_id_append
      (subDelimF_cit_token_id false 'l' ('a' :: 'b' :: 'e' :: 'l' :: '\x7b' :: []) ['\x7d']
        [] (by decide) hbS x) a haS
  have hbeginp : ∀ f, subDelimF false "\\begin\x7b".data ['\x7d'] [] f
      (a ++ '<' :: 'c' :: 'i' :: 't' :: x :: '>' :: b) =
      a ++ '<' :: 'c' :: 'i' :: 't' :: x :: '>' :: b := by
    have e : "\\begin\x7b".data = '\\' :: 'b' :: 'e' :: 'g' :: 'i' :: 'n' :: '\x7b' :: [] := rfl
    rw [e]
    exact subDelimF_id_append
      (subDelimF_cit_token_id false 'b' ('e' :: 'g' :: 'i' :: 'n' :: '\x7b' :: []) ['\x7d']
        [] (by decide) hbS x) a haS
  have hendp : ∀ f, subDelimF false "\\end\x7b".data ['\x7d'] [] f
      (a ++ '<' :: 'c' :: 'i' :: 't' :: x :: '>' :: b) =
      a ++ '<' :: 'c' :: 'i' :: 't' :: x :: '>' :: b := by
    have e : "\\end\x7b".data = '\\' :: 'e' :: 'n' :: 'd' :: '\x7b' :: [] := rfl
    rw [e]
    exact subDelimF_id_append
      (subDelimF_cit_token_id false 'e' ('n' :: 'd' :: '\x7b' :: []) ['\x7d']
        [] (by decide) hbS x) a haS
  rw [hcite, hrefp, hlabelp, hbeginp, hendp]
  rw [sub_cmdF_id_append (sub_cmdF_cit_token_id hbS x) a haS]
  have hlen : a.length < (a ++ '<' :: 'c' :: 'i' :: 't' :: x :: '>' :: b).length := by
    rw [List.length_append]
    simp only [List.length_cons]
    omega
  rw [sub_citTokF_removes hbL hx a _ haL hlen]
  rw [sub_refTokF_id hltab, sub_urlF_id hltab, sub_singleNl_id hnlab, sub13F_id hnlab]

/-- The full normalizer pass chain deletes a literal `<ref>` token in a
plain context: every pass before the `<ref>`-deletion pass leaves it alone
(the `<cit.>` pass does not match it), that pass removes exactly it, and the
remaining passes are the identity. -/
lemma clean_textL_ref {a b : List Char}
    (haS : ∀ c ∈ a, c ≠ '\\') (haL : ∀ c ∈ a, c ≠ '<') (haN : ∀ c ∈ a, c ≠ '\n')
    (hbS : '\\' ∉ b) (hbL : '<' ∉ b) (hbN : '\n' ∉ b) :
    clean_textL (a ++ '<' :: 'r' :: 'e' :: 'f' :: '>' :: b) = pyStrip (a ++ b) := by
  have hbsL : '\\' ∉ a ++ '<' :: 'r' :: 'e' :: 'f' :: '>' :: b := by
    intro hm
    rcases List.mem_append.mp hm with h | h
    · exact haS _ h rfl
    · simp only [List.mem_cons] at h
      rcases h with h | h | h | h | h | h
      · exact absurd h (by decide)
      · exact absurd h (by decide)
      · exact absurd h (by decide)
      · exact absurd h (by decide)
      · exact absurd h (by decide)
      · exact hbS h
  have hnlL : '\n' ∉ a ++ '<' :: 'r' :: 'e' :: 'f' :: '>' :: b := by
    intro hm
    rcases List.mem_append.mp hm with h | h
    · exact haN _ h rfl
    · simp only [List.mem_cons] at h
      rcases h with h | h | h | h | h | h
      · exact absurd h (by decide)
      · exact absurd h (by decide)
      · exact absurd h (by decide)
      · exact absurd h (by decide)
      · exact absurd h (by decide)
      · exact hbN h
  have hnlab : '\n' ∉ a ++ b := by
    intro hm
    rcases List.mem_append.mp hm with h | h
    · exact haN _ h rfl
    · exact hbN h
  have hltab : '<' ∉ a ++ b := by
    intro hm
    rcases List.mem_append.mp hm with h | h
    · exact haL _ h rfl
    · exact hbL h
  show pyStrip (sub13 (sub_singleNl none (sub_url (sub_refTok (sub_citTok (sub_cmd
    (subDelim false "\\end\x7b".data ['\x7d'] [] (subDelim false "\\begin\x7b".data ['\x7d'] []
      (subDelim false "\\label\x7b".data ['\x7d'] [] (subDelim false "\\ref\x7b".data ['\x7d'] "<ref>".data
        (subDelim false "\\cite\x7b".data ['\x7d'] "<cit.>".data
          (sub_blank (a ++ '<' :: 'r' :: 'e' :: 'f' :: '>' :: b))))))))))))) =
    pyStrip (a ++ b)
  unfold sub_blank subDelim sub_cmd sub_citTok sub_refTok sub_url sub13
  rw [sub_blankF_id hnlL]
  rw [subDelimF_id hbsL, subDelimF_id hbsL, subDelimF_id hbsL, subDelimF_id hbsL,
    subDelimF_id hbsL, sub_cmdF_id hbsL]
  rw [sub_citTokF_skips_ref hbL a haL]
  have hlen : a.length < (a ++ '<' :: 'r' :: 'e' :: 'f' :: '>' :: b).length := by
    rw [List.length_append]
    simp only [List.length_cons]
    omega
  rw [sub_refTokF_removes hbL a _ haL hlen]
  rw [sub_urlF_id hltab, sub_singleNl_id hnlab, sub13F_id hnlab]

/-- C10 counterexample: placeholder-shaped substrings are not always removed
from the output.  On input `<ci<cit.>t.>` the single scan of the
`<cit.>`-deletion pass removes the inner token, and the surrounding
characters concatenate into a new `<cit.>` that survives to the output. -/
theorem clean_text_cit_wildcard_counterexample :
    clean_text "<ci<cit.>t.>" = "<cit.>" ∧
    containsLC "<cit.>".data (clean_text "<ci<cit.>t.>").data = true := by
  constructor
  · decide
  · decide

/-- C10 (amended): the normalizer deletes placeholder-shaped substrings
occurring literally in the input — every `<cit`·`>` with any single
non-newline wildcard character (the unescaped regex dot does not match a
newline), and every literal `<ref>` — universally over all surrounding
contexts that cannot interact with the deletion: for every sanitizer that
has nothing to repair on these inputs (its specified behaviour on
artifact-free text) and all contexts `a`, `b` free of backslashes, `<` and
newlines, normalizing the text with the token inserted gives the same
output as normalizing the text without it. -/
theorem clean_text_deletes_literal_tokens (fix : String → String)
    (a b : List Char) (x : Char)
    (ha : ∀ c ∈ a, c ≠ '\\' ∧ c ≠ '<' ∧ c ≠ '\n')
    (hb : ∀ c ∈ b, c ≠ '\\' ∧ c ≠ '<' ∧ c ≠ '\n')
    (hx : x ≠ '\n')
    (hfix1 : fix ⟨a ++ '<' :: 'c' :: 'i' :: 't' :: x :: '>' :: b⟩ =
      ⟨a ++ '<' :: 'c' :: 'i' :: 't' :: x :: '>' :: b⟩)
    (hfix2 : fix ⟨a ++ '<' :: 'r' :: 'e' :: 'f' :: '>' :: b⟩ =
      ⟨a ++ '<' :: 'r' :: 'e' :: 'f' :: '>' :: b⟩)
    (hfix3 : fix ⟨a ++ b⟩ = ⟨a ++ b⟩) :
    clean_textWith fix ⟨a ++ '<' :: 'c' :: 'i' :: 't' :: x :: '>' :: b⟩ =
      clean_textWith fix ⟨a ++ b⟩ ∧
    clean_textWith fix ⟨a ++ '<' :: 'r' :: 'e' :: 'f' :: '>' :: b⟩ =
      clean_textWith fix ⟨a ++ b⟩ := by
  have haS : ∀ c ∈ a, c ≠ '\\' := fun c hc => (ha c hc).1
  have haL : ∀ c ∈ a, c ≠ '<' := fun c hc => (ha c hc).2.1
  have haN : ∀ c ∈ a, c ≠ '\n' := fun c hc => (ha c hc).2.2
  have hbS : '\\' ∉ b := fun hm => (hb _ hm).1 rfl
  have hbL : '<' ∉ b := fun hm => (hb _ hm).2.1 rfl
  have hbN : '\n' ∉ b := fun hm => (hb _ hm).2.2 rfl
  have hbsab : '\\' ∉ a ++ b := by
    intro hm
    rcases List.mem_append.mp hm with h | h
    · exact haS _ h rfl
    · exact hbS h
  have hltab : '<' ∉ a ++ b := by
    intro hm
    rcases List.mem_append.mp hm with h | h
    · exact haL _ h rfl
    · exact hbL h
  have hnlab : '\n' ∉ a ++ b := by
    intro hm
    rcases List.mem_append.mp hm with h | h
    · exact haN _ h rfl
    · exact hbN h
  have hRHS : clean_textWith fix ⟨a ++ b⟩ = ⟨pyStrip (a ++ b)⟩ := by
    have h0 : clean_textWith fix ⟨a ++ b⟩ = ⟨clean_textL (fix ⟨a ++ b⟩).data⟩ := rfl
    rw [h0, hfix3]
    have h1 : (⟨a ++ b⟩ : String).data = a ++ b := rfl
    rw [h1, clean_textL_plain hbsab hltab hnlab]
  constructor
  · have h0 : clean_textWith fix ⟨a ++ '<' :: 'c' :: 'i' :: 't' :: x :: '>' :: b⟩ =
        ⟨clean_textL (fix ⟨a ++ '<' :: 'c' :: 'i' :: 't' :: x :: '>' :: b⟩).data⟩ := rfl
    rw [h0, hfix1]
    have h1 : (⟨a ++ '<' :: 'c' :: 'i' :: 't' :: x :: '>' :: b⟩ : String).data =
        a ++ '<' :: 'c' :: 'i' :: 't' :: x :: '>' :: b := rfl
    rw [h1, clean_textL_cit x haS haL haN hbS hbL hbN hx, hRHS]
  · have h0 : clean_textWith fix ⟨a ++ '<' :: 'r' :: 'e' :: 'f' :: '>' :: b⟩ =
        ⟨clean_textL (fix ⟨a ++ '<' :: 'r' :: 'e' :: 'f' :: '>' :: b⟩).data⟩ := rfl
    rw [h0, hfix2]
    have h1 : (⟨a ++ '<' :: 'r' :: 'e' :: 'f' :: '>' :: b⟩ : String).data =
        a ++ '<' :: 'r' :: 'e' :: 'f' :: '>' :: b := rfl
    rw [h1, clean_textL_ref haS haL haN hbS hbL hbN, hRHS]

/-- C10 witness: with the program's sanitizer (which changes nothing on
these plain-ASCII inputs), a `<citX>` and a `<ref>` between `a` and `b` are
both deleted. -/
theorem clean_text_deletes_literal_tokens_witness :
    clean_textWith fix_text ⟨['a'] ++ '<' :: 'c' :: 'i' :: 't' :: 'X' :: '>' :: ['b']⟩ =
      clean_textWith fix_text ⟨['a'] ++ ['b']⟩ ∧
    clean_textWith fix_text ⟨['a'] ++ '<' :: 'r' :: 'e' :: 'f' :: '>' :: ['b']⟩ =
      clean_textWith fix_text ⟨['a'] ++ ['b']⟩ :=
  clean_text_deletes_literal_tokens fix_text ['a'] ['b'] 'X'
    (by decide) (by decide) (by decide) rfl rfl rfl

/-- C4: converter degradation.  Whenever the external conversion raises
(returns an error), `tex_to_text` returns its input unchanged and never
propagates the error. -/
theorem tex_to_text_error_degrades (convert : String → Except String String)
    (s e : String) (h : convert s = Except.error e) :
    tex_to_text convert s = s := by
  unfold tex_to_text
  rw [h]

/-- C4 witness: a converter that always fails leaves the input untouched. -/
theorem tex_to_text_error_degrades_witness :
    tex_to_text (fun _ => Except.error "conversion failed") "\\bad\x7b" = "\\bad\x7b" :=
  tex_to_text_error_degrades (fun _ => Except.error "conversion failed")
    "\\bad\x7b" "conversion failed" rfl

/-- C5 counterexample: when every decode attempt fails, the raised message
names the path but does not name any of the attempted encodings — the
f-string on line 54 interpolates only the path, so the claim that the error
names the attempted encodings is false. -/
theorem read_file_with_fallback_msg_counterexample :
    read_file_with_fallback (fun _ => none) "main.tex" =
      Except.error (decodeFailMsg "main.tex") ∧
    decodeFailMsg "main.tex" = "Failed to read main.tex with tried encodings" ∧
    containsLC "utf-8".data (decodeFailMsg "main.tex").data = false ∧
    containsLC "latin-1".data (decodeFailMsg "main.tex").data = false ∧
    containsLC "iso-8859-1".data (decodeFailMsg "main.tex").data = false := by
  refine ⟨rfl, rfl, by decide, by decide, by decide⟩

/-- C5 (amended): `read_file_with_fallback` attempts exactly the three
encodings utf-8, latin-1, iso-8859-1 in that strict order and returns the
content of the first that decodes successfully; if every attempt fails it
raises an error whose message names the path (but not the individual
attempted encodings). -/
theorem read_file_with_fallback_spec (decode : String → Option String) (path : String) :
    read_file_with_fallback decode path =
      (match decode "utf-8" with
       | some c => Except.ok c
       | none =>
         match decode "latin-1" with
         | some c => Except.ok c
         | none =>
           match decode "iso-8859-1" with
           | some c => Except.ok c
           | none => Except.error (decodeFailMsg path)) ∧
    containsLC path.data (decodeFailMsg path).data = true := by
  constructor
  · unfold read_file_with_fallback encodings
    rw [readWithEncodings]
    cases h1 : decode "utf-8" with
    | some c => rfl
    | none =>
      rw [readWithEncodings]
      cases h2 : decode "latin-1" with
      | some c => rfl
      | none =>
        rw [readWithEncodings]
        cases h3 : decode "iso-8859-1" with
        | some c => rfl
        | none => rw [readWithEncodings]
  · have hd : (decodeFailMsg path).data =
        "Failed to read ".data ++ path.data ++ " with tried encodings".data := by
      unfold decodeFailMsg
      rw [data_append, data_append]
    rw [hd]
    exact containsLC_of_parts _ _ _

/-- C9: the decode-failure branch is unreachable.  latin-1 decodes every
possible byte sequence, so for every file content `read_file_with_fallback`
returns on the first (utf-8) or second (latin-1) attempt and the final
`raise` is never executed. -/
theorem read_file_with_fallback_never_fails (path : String) (bytes : List (Fin 256)) :
    read_file_with_fallback_bytes path bytes =
      Except.ok (match utf8DecodeBytes bytes with
        | some cs => (⟨cs⟩ : String)
        | none => (⟨latin1Decode bytes⟩ : String)) := by
  have h1 : pyDecode bytes "utf-8" = (utf8DecodeBytes bytes).map (fun cs => (⟨cs⟩ : String)) := by
    unfold pyDecode
    rw [if_pos rfl]
  have h2 : pyDecode bytes "latin-1" = some ⟨latin1Decode bytes⟩ := by
    unfold pyDecode
    rw [if_neg (by decide), if_pos rfl]
  unfold read_file_with_fallback_bytes read_file_with_fallback encodings
  rw [readWithEncodings, h1]
  cases h : utf8DecodeBytes bytes with
  | some cs => rfl
  | none =>
    rw [Option.map_none', readWithEncodings, h2]

lemma pySplitGo_length (l : List Char) : ∀ cur : List Char,
    (pySplitGo cur l).length =
      (if cur.isEmpty then 0 else 1) + countWordRuns cur.isEmpty l := by
  induction l with
  | nil =>
    intro cur
    cases cur <;> simp [pySplitGo, countWordRuns, List.isEmpty]
  | cons c t ih =>
    intro cur
    by_cases hc : isPySpace c = true
    · cases cur with
      | nil => simp [pySplitGo, countWordRuns, hc, List.isEmpty, ih []]
      | cons a as =>
        simp [pySplitGo, countWordRuns, hc, List.isEmpty, ih []]
        omega
    · cases cur with
      | nil =>
        simp [pySplitGo, countWordRuns, List.isEmpty, hc, ih (c :: [])]
      | cons a as =>
        simp [pySplitGo, countWordRuns, List.isEmpty, hc, ih (c :: a :: as)]

/-- C7: statistics correctness.  For every final cleaned text, `num_words`
is the number of whitespace-separated tokens (equal to the number of maximal
nonwhitespace runs), `num_paragraphs` is the non-overlapping count of
`\n\n` occurrences plus one, and `num_chars` is the character length. -/
theorem extract_stats_spec (text : String) :
    extract_stats text =
      (countWordRuns true text.data, countNlNl text.data + 1, text.data.length) := by
  unfold extract_stats pySplitWs
  have h := pySplitGo_length text.data []
  simp only [List.isEmpty, if_true, Nat.zero_add] at h
  rw [h]

/-- C8: debug noninterference.  The returned content of `clean_tex_content`
is identical with `debug=True` and `debug=False`: the flag only gates
diagnostic printing in the source and does not occur in the computation of
the returned string. -/
theorem clean_tex_content_debug_noninterference (s : String) :
    clean_tex_content s true = clean_tex_content s false := rfl

end TexToText
